import Mathlib

set_option maxHeartbeats 1000000
set_option autoImplicit false

/-
Verification development for git-structured-log (src/main.rs).

The program walks a revision range and prints, per commit, a structured
record (JSON object per line, or CSV) whose fields are selected by a
comma-separated field-code list.  The embedding below translates the
program's core (`print_commits`, `oid_to_hex_string`, `object_to_hex_string`,
`git_time_to_iso8601`, `invalid_format`) into Lean.

The version-control backend (libgit2 via the git2 crate) and the date
library (chrono) are external collaborators of the program.  Their
operations are modelled as inputs / Lean implementations faithful to the
contract stated in the specification, section 6:
  - the revision walk is an input list of commit records;
  - ref enumeration is an input list of `RefItem`s;
  - tree-to-tree diff statistics are an input function
    `Option Oid → Option Oid → Option DiffStats`, where the spec states the
    backend yields no stats when the first tree is absent;
  - hash abbreviation results are carried in each commit record
    (`shortId`, `treeShortId`, `parentShortIds`), with the spec contract
    (shortest unambiguous **prefix** of the full hash) used as a hypothesis
    where a claim needs it;
  - `git_time_to_iso8601` is implemented, reproducing chrono's
    `DateTime::<FixedOffset>::to_rfc3339` on whole seconds.

Modelled from the spec: the repository's Cargo.toml is not among the
available sources, so it is unknown whether serde_json's `preserve_order`
feature is enabled (which decides whether `serde_json::map::Map` is an
insertion-ordered IndexMap or a sorted BTreeMap).  The spec states that
output keys appear in request order, so `JMap` below is modelled as the
insertion-ordered variant.  Under both variants an insert with an existing
key replaces the value and keeps a single entry for the key.
-/

abbrev Byte := Fin 256

abbrev Oid := List Byte

structure GitTime where
  seconds : Int
  offsetMinutes : Int
  deriving DecidableEq, Repr

structure DiffStats where
  files_changed : Nat
  insertions : Nat
  deletions : Nat
  deriving DecidableEq, Repr

/-- One commit as fetched from the backend.  `treeOk` models whether
`commit.tree()` succeeds; `shortId`/`treeShortId`/`parentShortIds` carry the
backend's `short_id()` results (`none` models `as_str()` returning `None`,
i.e. a bad shorthash); the `Option String` text fields are `none` when the
underlying bytes are not valid UTF-8. -/
structure CommitRec where
  id : Oid
  treeId : Oid
  treeOk : Bool
  parentIds : List Oid
  shortId : Option String
  treeShortId : Option String
  parentShortIds : List (Option String)
  authorName : Option String
  authorEmail : Option String
  authorWhen : GitTime
  commitTime : GitTime
  summary : Option String
  message : Option String
  deriving DecidableEq, Repr

/-- The JSON values the program constructs: strings, i64 numbers, and
arrays of strings (parent hashes, ref names). -/
inductive Value where
  | vStr : String → Value
  | vNum : Int → Value
  | vArr : List String → Value
  deriving DecidableEq, Repr

/-- Rust `oid_to_hex_string`: each byte printed as two lowercase hex
digits, concatenated. -/
def oid_to_hex_string (oid : Oid) : String :=
  String.mk (oid.flatMap (fun b => [Nat.digitChar (b.val / 16), Nat.digitChar (b.val % 16)]))

/-- serde_json string escaping: `"` and `\` are escaped, control
characters use the short escapes or `\u00xx`; other characters are kept. -/
def escape_char (c : Char) : List Char :=
  if c = '"' then ['\\', '"']
  else if c = '\\' then ['\\', '\\']
  else if c.toNat ≥ 32 then [c]
  else if c.toNat = 8 then ['\\', 'b']
  else if c.toNat = 9 then ['\\', 't']
  else if c.toNat = 10 then ['\\', 'n']
  else if c.toNat = 12 then ['\\', 'f']
  else if c.toNat = 13 then ['\\', 'r']
  else ['\\', 'u', '0', '0', Nat.digitChar (c.toNat / 16), Nat.digitChar (c.toNat % 16)]

def json_quote (s : String) : String :=
  "\"" ++ String.mk (s.data.flatMap escape_char) ++ "\""

/-- serde_json `Value::to_string()` (its `Display`): compact JSON. -/
def Value.render : Value → String
  | .vStr s => json_quote s
  | .vNum n => toString n
  | .vArr l => "[" ++ String.intercalate "," (l.map json_quote) ++ "]"

/-- The per-row map `serde_json::map::Map` (see header comment: modelled as
insertion-ordered). -/
abbrev JMap := List (String × Value)

/-- `Map::insert`: replaces the value in place when the key exists,
otherwise appends the new entry. -/
def JMap.insert : JMap → String → Value → JMap
  | [], k, v => [(k, v)]
  | (k', v') :: rest, k, v =>
    if k' = k then (k', v) :: rest else (k', v') :: JMap.insert rest k v

def JMap.lookup : JMap → String → Option Value
  | [], _ => none
  | (k', v') :: rest, k => if k' = k then some v' else JMap.lookup rest k

def JMap.keys (m : JMap) : List String := m.map Prod.fst

/-- The reference index `HashMap<Oid, Vec<String>>`, as an association list
with at most one entry per key (iteration order is never observed by the
program — only lookup, insert-or-push and remove). -/
abbrev RefMap := List (Oid × List String)

def RefMap.lookupRefs : RefMap → Oid → Option (List String)
  | [], _ => none
  | (k, v) :: rest, oid => if k = oid then some v else RefMap.lookupRefs rest oid

/-- `HashMap::remove`: drops the entry for the key, if present. -/
def RefMap.eraseKey : RefMap → Oid → RefMap
  | [], _ => []
  | (k, v) :: rest, oid => if k = oid then rest else (k, v) :: RefMap.eraseKey rest oid

/-- `map.entry(oid).or_insert_with(Vec::new).push(name)`. -/
def RefMap.pushName : RefMap → Oid → String → RefMap
  | [], oid, name => [(oid, [name])]
  | (k, v) :: rest, oid, name =>
    if k = oid then (k, v ++ [name]) :: rest
    else (k, v) :: RefMap.pushName rest oid name

/-- One item of the backend's ref enumeration (spec section 6):
`enumErr` models `reference_result` being an `Err`; `entry sh tgt` carries
the shorthand (`none` = no usable short name, skipped) and the
`peel_to_commit` result. -/
inductive RefItem where
  | enumErr : String → RefItem
  | entry : Option String → Except String Oid → RefItem

/-- The ref-index building loop of `print_commits` (lines 81-92). -/
def build_ref_aux : List RefItem → RefMap → Except String RefMap
  | [], rm => .ok rm
  | .enumErr e :: _, _ => .error e
  | .entry none _ :: rest, rm => build_ref_aux rest rm
  | .entry (some name) tgt :: rest, rm =>
    match tgt with
    | .error e => .error e
    | .ok oid => build_ref_aux rest (RefMap.pushName rm oid name)

def build_reference_map (items : List RefItem) : Except String RefMap :=
  build_ref_aux items []

/-- Rust `invalid_format`'s error message. -/
def invalid_format_msg (format : String) (reason : String) : String :=
  "Invalid format `" ++ format ++ "`: " ++ reason

def pad2 (n : Nat) : String :=
  String.mk [Nat.digitChar (n / 10), Nat.digitChar (n % 10)]

def pad4 (n : Nat) : String :=
  String.mk [Nat.digitChar (n / 1000 % 10), Nat.digitChar (n / 100 % 10),
    Nat.digitChar (n / 10 % 10), Nat.digitChar (n % 10)]

def year_str (y : Int) : String :=
  if y < 0 then "-" ++ pad4 y.natAbs
  else if y > 9999 then "+" ++ toString y
  else pad4 y.natAbs

/-- Proleptic Gregorian civil date from a day count relative to 1970-01-01
(the standard era-based algorithm, as used by date libraries such as
chrono). -/
def civil_from_days (z0 : Int) : Int × Int × Int :=
  let z := z0 + 719468
  let era := Int.ediv z 146097
  let doe := Int.emod z 146097
  let yoe := Int.ediv (doe - Int.ediv doe 1460 + Int.ediv doe 36524 - Int.ediv doe 146096) 365
  let y := yoe + era * 400
  let doy := doe - (365 * yoe + Int.ediv yoe 4 - Int.ediv yoe 100)
  let mp := Int.ediv (5 * doy + 2) 153
  let d := doy - Int.ediv (153 * mp + 2) 5 + 1
  let m := if mp < 10 then mp + 3 else mp - 9
  (y + (if m ≤ 2 then 1 else 0), m, d)

/-- The `%:z` / RFC 3339 timezone suffix chrono prints for a
`FixedOffset` of the given number of seconds east. -/
def render_offset (offsetSeconds : Int) : String :=
  let sign := if offsetSeconds < 0 then "-" else "+"
  let minutes := offsetSeconds.natAbs / 60
  sign ++ pad2 (minutes / 60) ++ ":" ++ pad2 (minutes % 60)

/-- Rust `git_time_to_iso8601`: interprets the commit time as a naive UTC
timestamp, attaches `FixedOffset::east(offset_minutes * 60)` and renders
`to_rfc3339` (whole seconds, so no fractional part). -/
def git_time_to_iso8601 (t : GitTime) : String :=
  let offsetSeconds := t.offsetMinutes * 60
  let localSeconds := t.seconds + offsetSeconds
  let days := Int.ediv localSeconds 86400
  let sod := (Int.emod localSeconds 86400).toNat
  let ymd := civil_from_days days
  year_str ymd.1 ++ "-" ++ pad2 ymd.2.1.toNat ++ "-" ++ pad2 ymd.2.2.toNat ++ "T" ++
    pad2 (sod / 3600) ++ ":" ++ pad2 (sod % 3600 / 60) ++ ":" ++ pad2 (sod % 60) ++
    render_offset offsetSeconds

/-- `commit.tree()` as an optional tree id. -/
def commit_tree (c : CommitRec) : Option Oid :=
  if c.treeOk then some c.treeId else none

/-- Collects the parents' short ids, failing on the first missing one
(the `collect::<Result<..>>` over `object_to_hex_string(parent)`). -/
def opt_all : List (Option String) → Option (List String)
  | [] => some []
  | none :: _ => none
  | some s :: rest => (opt_all rest).map (fun l => s :: l)

def df_string (ds : Option DiffStats) : String :=
  (ds.map (fun d => toString d.files_changed)).getD ""

def di_string (ds : Option DiffStats) : String :=
  (ds.map (fun d => toString d.insertions)).getD ""

def dd_string (ds : Option DiffStats) : String :=
  (ds.map (fun d => toString d.deletions)).getD ""

/-- The field-resolution match of `print_commits` (lines 118-164), one
Rust match arm per test, in source order.  Returns the resolved value and
the reference index after resolution (only `"D"` mutates it). -/
def resolveField (rm : RefMap) (ds : Option DiffStats) (c : CommitRec) (f : String) :
    Except String (Value × RefMap) :=
  if f = "H" then .ok (.vStr (oid_to_hex_string c.id), rm)
  else if f = "h" then
    match c.shortId with
    | some s => .ok (.vStr s, rm)
    | none => .error "libgit returned a bad shorthash"
  else if f = "T" then .ok (.vStr (oid_to_hex_string c.treeId), rm)
  else if f = "t" then
    if c.treeOk then
      match c.treeShortId with
      | some s => .ok (.vStr s, rm)
      | none => .error "libgit returned a bad shorthash"
    else .error "could not fetch tree object"
  else if f = "P" then .ok (.vArr (c.parentIds.map oid_to_hex_string), rm)
  else if f = "p" then
    match opt_all c.parentShortIds with
    | some l => .ok (.vArr l, rm)
    | none => .error "libgit returned a bad shorthash"
  else if f = "an" then
    match c.authorName with
    | some s => .ok (.vStr s, rm)
    | none => .error "Author name contains invalid UTF8"
  else if f = "ae" then
    match c.authorEmail with
    | some s => .ok (.vStr s, rm)
    | none => .error "Author email contains invalid UTF8"
  else if f = "aN" ∨ f = "aE" then
    .error (invalid_format_msg f "Mailmaps not currently supported, consider using `an`/`ae` instead of `aN`/`aE`")
  else if f = "at" then .ok (.vNum c.authorWhen.seconds, rm)
  else if f = "aI" then .ok (.vStr (git_time_to_iso8601 c.authorWhen), rm)
  else if f = "ad" ∨ f = "aD" ∨ f = "ar" ∨ f = "ai" then
    .error (invalid_format_msg f "Formatted dates not supported, use `aI` and format the date yourself")
  else if f = "ct" then .ok (.vNum c.commitTime.seconds, rm)
  else if f = "cI" then .ok (.vStr (git_time_to_iso8601 c.commitTime), rm)
  else if f = "cd" ∨ f = "cD" ∨ f = "cr" ∨ f = "ci" then
    .error (invalid_format_msg f "Formatted dates not supported, use `cI` and format the date yourself")
  else if f = "d" then
    .error (invalid_format_msg f "Formatted ref names not supported, use `D` and format the names yourself")
  else if f = "D" then
    .ok (.vArr ((RefMap.lookupRefs rm c.id).getD []), RefMap.eraseKey rm c.id)
  else if f = "s" then
    match c.summary with
    | some s => .ok (.vStr s, rm)
    | none => .error "Commit header contains invalid UTF8"
  else if f = "b" then
    .error (invalid_format_msg f "Body not supported, use `B` and extract the body yourself")
  else if f = "B" then
    match c.message with
    | some s => .ok (.vStr s, rm)
    | none => .error "Commit message contains invalid UTF8"
  else if f = "N" then .error (invalid_format_msg f "Notes not currently supported")
  else if f = "df" then .ok (.vStr (df_string ds), rm)
  else if f = "di" then .ok (.vStr (di_string ds), rm)
  else if f = "dd" then .ok (.vStr (dd_string ds), rm)
  else if f = "GG" ∨ f = "G?" ∨ f = "GS" ∨ f = "GK" then
    .error (invalid_format_msg f "Signatures not currently supported")
  else .error (invalid_format_msg f "Not found")

/-- The codes the resolver supports. -/
def supported_codes : List String :=
  ["H", "h", "T", "t", "P", "p", "an", "ae", "at", "aI", "ct", "cI", "D", "s", "B", "df", "di", "dd"]

/-- Classifies a field code as unsupported/unrecognized, giving the
corrective reason `invalid_format` is called with; `none` for supported
codes. -/
def invalidReason (f : String) : Option String :=
  if f ∈ supported_codes then none
  else if f = "aN" ∨ f = "aE" then
    some "Mailmaps not currently supported, consider using `an`/`ae` instead of `aN`/`aE`"
  else if f = "ad" ∨ f = "aD" ∨ f = "ar" ∨ f = "ai" then
    some "Formatted dates not supported, use `aI` and format the date yourself"
  else if f = "cd" ∨ f = "cD" ∨ f = "cr" ∨ f = "ci" then
    some "Formatted dates not supported, use `cI` and format the date yourself"
  else if f = "d" then some "Formatted ref names not supported, use `D` and format the names yourself"
  else if f = "b" then some "Body not supported, use `B` and extract the body yourself"
  else if f = "N" then some "Notes not currently supported"
  else if f = "GG" ∨ f = "G?" ∨ f = "GS" ∨ f = "GK" then some "Signatures not currently supported"
  else some "Not found"

/-- Every code the resolver's match tests for, in source order (supported
and deliberately-disallowed alike); anything outside this list hits the
final `"Not found"` arm. -/
def all_codes : List String :=
  ["H", "h", "T", "t", "P", "p", "an", "ae", "aN", "aE", "at", "aI",
   "ad", "aD", "ar", "ai", "ct", "cI", "cd", "cD", "cr", "ci", "d", "D",
   "s", "b", "B", "N", "df", "di", "dd", "GG", "G?", "GS", "GK"]

/-- The per-commit row-building loop (`for format in &formats`). -/
def buildRowAux (ds : Option DiffStats) (c : CommitRec) :
    List String → JMap → RefMap → Except String (JMap × RefMap)
  | [], m, rm => .ok (m, rm)
  | f :: fs, m, rm =>
    match resolveField rm ds c f with
    | .error e => .error e
    | .ok (v, rm') => buildRowAux ds c fs (JMap.insert m f v) rm'

/-- The Rust panic message of `Option::unwrap` on `None`, the outcome of
`prevcommit.map(|pc| pc.tree().unwrap())` when the previous commit's tree
cannot be fetched.  The panic aborts the run like an error does. -/
def panic_msg : String := "called Option::unwrap() on a None value"

/-- `prevcommit.map(|pc| pc.tree().unwrap())`. -/
def prev_tree : Option CommitRec → Except String (Option Oid)
  | none => .ok none
  | some pc => if pc.treeOk then .ok (some pc.treeId) else .error panic_msg

/-- The revision-walk loop of `print_commits` (lines 104-184), producing
the per-commit row maps in walk order, together with the error (if any)
that aborted the walk.  `dfn` is the backend's tree-to-tree diff
statistics (`diff_tree_to_tree(..).map(|d| d.stats().ok()).ok().flatten()`,
spec section 6). -/
def process_commits (dfn : Option Oid → Option Oid → Option DiffStats) (fmts : List String) :
    Option CommitRec → RefMap → List CommitRec → List JMap × Option String
  | _, _, [] => ([], none)
  | prev, rm, c :: cs =>
    match prev_tree prev with
    | .error e => ([], some e)
    | .ok pt =>
      match buildRowAux (dfn pt (commit_tree c)) c fmts [] rm with
      | .error e => ([], some e)
      | .ok (row, rm') =>
        let r := process_commits dfn fmts (some c) rm' cs
        (row :: r.1, r.2)

/-- JSON mode: `println!("{}", Value::Object(map))`. -/
def render_row_json (m : JMap) : String :=
  "\x7b" ++ String.intercalate "," (m.map (fun kv => json_quote kv.1 ++ ":" ++ Value.render kv.2)) ++ "\x7d"

/-- CSV data row: `map.values().map(|s| s.to_string()).join(",")` — each
value rendered by serde_json's `Display`. -/
def render_row_csv (m : JMap) : String :=
  String.intercalate "," (m.map (fun kv => Value.render kv.2))

/-- CSV header: `map.keys().join(",")`, printed before the first row. -/
def csv_header (m : JMap) : String := String.intercalate "," (JMap.keys m)

inductive OutputFormat where
  | Json
  | Csv
  deriving DecidableEq, Repr

def render_output : OutputFormat → List JMap → List String
  | .Json, rows => rows.map render_row_json
  | .Csv, [] => []
  | .Csv, r :: rs => csv_header r :: (r :: rs).map render_row_csv

/-- Observable outcome of a run: the lines printed to stdout, and the
error that aborted the run (`none` = exit 0). -/
structure RunResult where
  lines : List String
  error : Option String
  deriving DecidableEq, Repr

/-- `print_commits` after the field list has been split: builds the
reference index only when the list contains `"D"`, then walks the commits
and renders each row. -/
def run_with_formats (dfn : Option Oid → Option Oid → Option DiffStats)
    (refItems : List RefItem) (fmts : List String) (fmt : OutputFormat)
    (commits : List CommitRec) : RunResult :=
  match (if fmts.contains "D" then build_reference_map refItems else .ok []) with
  | .error e => { lines := [], error := some e }
  | .ok rm =>
    let r := process_commits dfn fmts none rm commits
    { lines := render_output fmt r.1, error := r.2 }

/-- Rust `print_commits`: `formats_input.split(',')` then the run.  The
repository handle, range parsing and walk ordering live in the backend;
`commits` is the walk the backend yields for the given range and
direction. -/
def print_commits (dfn : Option Oid → Option Oid → Option DiffStats)
    (refItems : List RefItem) (formats_input : String) (fmt : OutputFormat)
    (commits : List CommitRec) : RunResult :=
  run_with_formats dfn refItems (formats_input.splitOn ",") fmt commits

/-- Key order produced by repeated `JMap.insert` from an empty map: the
requested codes with later duplicates dropped. -/
def key_step (ks : List String) (f : String) : List String :=
  if f ∈ ks then ks else ks ++ [f]

def dedup_first (fs : List String) : List String := fs.foldl key_step []

/-- Digit value of a decimal digit character. -/
def char_digit (c : Char) : Nat := c.toNat - 48

/-- Reads a rendered `±HH:MM` timezone suffix back into signed minutes. -/
def decode_offset (s : String) : Option Int :=
  match s.data with
  | [sg, h1, h2, cl, m1, m2] =>
    if cl = ':' then
      let v : Int := (char_digit h1 * 600 + char_digit h2 * 60 + char_digit m1 * 10 + char_digit m2 : Nat)
      if sg = '+' then some v else if sg = '-' then some (-v) else none
    else none
  | _ => none

/-- A diff function with no statistics at all (also satisfies the spec's
first-commit contract). -/
def dfnN : Option Oid → Option Oid → Option DiffStats := fun _ _ => none

/-- A diff function yielding statistics exactly when a previous tree
exists, per the backend contract of spec section 6. -/
def dfnC : Option Oid → Option Oid → Option DiffStats :=
  fun a _ => if a = none then none else some { files_changed := 3, insertions := 4, deletions := 5 }

def tA : GitTime := { seconds := 1700000000, offsetMinutes := 0 }

/-- A concrete root commit. -/
def cA : CommitRec :=
  { id := [18], treeId := [52], treeOk := true, parentIds := [],
    shortId := some "1", treeShortId := some "3", parentShortIds := [],
    authorName := some "Alice", authorEmail := some "alice@example.com",
    authorWhen := tA, commitTime := tA,
    summary := some "init", message := some "init" }

/-- A concrete child commit of `cA`. -/
def cB : CommitRec :=
  { id := [35], treeId := [68], treeOk := true, parentIds := [[18]],
    shortId := some "2", treeShortId := some "4", parentShortIds := [some "1"],
    authorName := some "Bob", authorEmail := some "bob@example.com",
    authorWhen := { seconds := 1700000100, offsetMinutes := 60 },
    commitTime := { seconds := 1700000100, offsetMinutes := 60 },
    summary := some "second", message := some "second" }

/-- A concrete commit whose backend-abbreviated hashes are prefixes of the
full ones, as the backend contract promises. -/
def cC : CommitRec :=
  { id := [161, 178], treeId := [52], treeOk := true, parentIds := [[204, 1]],
    shortId := some "a1", treeShortId := some "3", parentShortIds := [some "cc"],
    authorName := some "Carol", authorEmail := some "carol@example.com",
    authorWhen := tA, commitTime := tA,
    summary := some "third", message := some "third" }

theorem JMap.lookup_insert_self (m : JMap) (k : String) (v : Value) :
    JMap.lookup (JMap.insert m k v) k = some v := by
  induction m with
  | nil => simp [JMap.insert, JMap.lookup]
  | cons kv rest ih =>
    obtain ⟨k', v'⟩ := kv
    by_cases h : k' = k
    · simp [JMap.insert, JMap.lookup, h]
    · simp [JMap.insert, JMap.lookup, h, ih]

theorem JMap.lookup_insert_other (m : JMap) {k' k : String} (v : Value) (h : k' ≠ k) :
    JMap.lookup (JMap.insert m k' v) k = JMap.lookup m k := by
  induction m with
  | nil => simp [JMap.insert, JMap.lookup, h]
  | cons kv rest ih =>
    obtain ⟨k₀, v₀⟩ := kv
    by_cases h0 : k₀ = k'
    · subst h0
      simp [JMap.insert, JMap.lookup, h]
    · simp only [JMap.insert, if_neg h0]
      by_cases h1 : k₀ = k
      · simp [JMap.lookup, h1]
      · simp [JMap.lookup, h1, ih]

theorem JMap.keys_insert (m : JMap) (k : String) (v : Value) :
    JMap.keys (JMap.insert m k v) = key_step (JMap.keys m) k := by
  induction m with
  | nil => simp [JMap.insert, JMap.keys, key_step]
  | cons kv rest ih =>
    obtain ⟨k₀, v₀⟩ := kv
    by_cases h0 : k₀ = k
    · subst h0
      simp [JMap.insert, JMap.keys, key_step]
    · have hk : k ≠ k₀ := fun h => h0 h.symm
      simp only [JMap.insert, if_neg h0, JMap.keys, List.map_cons] at ih ⊢
      rw [ih]
      simp only [key_step, List.mem_cons]
      by_cases hm : k ∈ List.map Prod.fst rest
      · simp [hm]
      · simp [hm, hk]

theorem key_step_nodup (fs : List String) :
    ∀ ks : List String, (ks ++ fs).Nodup → fs.foldl key_step ks = ks ++ fs := by
  induction fs with
  | nil => intro ks _; simp
  | cons f fs ih =>
    intro ks h
    have hf : f ∉ ks := by
      intro hmem
      exact (List.disjoint_of_nodup_append h) hmem (by simp)
    have h' : ((ks ++ [f]) ++ fs).Nodup := by simpa [List.append_assoc] using h
    simp only [List.foldl_cons, key_step, if_neg hf]
    rw [ih (ks ++ [f]) h']
    simp

theorem dedup_first_nodup (fs : List String) (h : fs.Nodup) : dedup_first fs = fs := by
  simpa using key_step_nodup fs [] (by simpa using h)

theorem resolve_df (rm : RefMap) (ds : Option DiffStats) (c : CommitRec) :
    resolveField rm ds c "df" = .ok (.vStr (df_string ds), rm) := rfl

theorem resolve_di (rm : RefMap) (ds : Option DiffStats) (c : CommitRec) :
    resolveField rm ds c "di" = .ok (.vStr (di_string ds), rm) := rfl

theorem resolve_dd (rm : RefMap) (ds : Option DiffStats) (c : CommitRec) :
    resolveField rm ds c "dd" = .ok (.vStr (dd_string ds), rm) := rfl

theorem resolve_D (rm : RefMap) (ds : Option DiffStats) (c : CommitRec) :
    resolveField rm ds c "D" =
      .ok (.vArr ((RefMap.lookupRefs rm c.id).getD []), RefMap.eraseKey rm c.id) := rfl

/-- A code outside `all_codes` falls through to the final arm. -/
theorem resolveField_unknown {f : String} (h : f ∉ all_codes) (rm : RefMap)
    (ds : Option DiffStats) (c : CommitRec) :
    resolveField rm ds c f = .error (invalid_format_msg f "Not found") := by
  simp only [all_codes, List.mem_cons, List.not_mem_nil, or_false, not_or] at h
  obtain ⟨n1, n2, n3, n4, n5, n6, n7, n8, n9, n10, n11, n12, n13, n14, n15, n16, n17, n18,
    n19, n20, n21, n22, n23, n24, n25, n26, n27, n28, n29, n30, n31, n32, n33, n34, n35⟩ := h
  unfold resolveField
  rw [if_neg n1, if_neg n2, if_neg n3, if_neg n4, if_neg n5, if_neg n6, if_neg n7, if_neg n8,
    if_neg (not_or.mpr ⟨n9, n10⟩), if_neg n11, if_neg n12,
    if_neg (not_or.mpr ⟨n13, not_or.mpr ⟨n14, not_or.mpr ⟨n15, n16⟩⟩⟩), if_neg n17, if_neg n18,
    if_neg (not_or.mpr ⟨n19, not_or.mpr ⟨n20, not_or.mpr ⟨n21, n22⟩⟩⟩), if_neg n23, if_neg n24,
    if_neg n25, if_neg n26, if_neg n27, if_neg n28, if_neg n29, if_neg n30, if_neg n31,
    if_neg (not_or.mpr ⟨n32, not_or.mpr ⟨n33, not_or.mpr ⟨n34, n35⟩⟩⟩)]

theorem invalidReason_unknown {f : String} (h : f ∉ all_codes) :
    invalidReason f = some "Not found" := by
  simp only [all_codes, List.mem_cons, List.not_mem_nil, or_false, not_or] at h
  obtain ⟨n1, n2, n3, n4, n5, n6, n7, n8, n9, n10, n11, n12, n13, n14, n15, n16, n17, n18,
    n19, n20, n21, n22, n23, n24, n25, n26, n27, n28, n29, n30, n31, n32, n33, n34, n35⟩ := h
  have hs : f ∉ supported_codes := by
    simp [supported_codes, n1, n2, n3, n4, n5, n6, n7, n8, n11, n12, n17, n18, n24, n25,
      n27, n29, n30, n31]
  unfold invalidReason
  rw [if_neg hs, if_neg (not_or.mpr ⟨n9, n10⟩),
    if_neg (not_or.mpr ⟨n13, not_or.mpr ⟨n14, not_or.mpr ⟨n15, n16⟩⟩⟩),
    if_neg (not_or.mpr ⟨n19, not_or.mpr ⟨n20, not_or.mpr ⟨n21, n22⟩⟩⟩),
    if_neg n23, if_neg n26, if_neg n28,
    if_neg (not_or.mpr ⟨n32, not_or.mpr ⟨n33, not_or.mpr ⟨n34, n35⟩⟩⟩)]

/-- Every resolver arm except `"D"` leaves the reference index untouched. -/
theorem resolveField_rm_eq {rm : RefMap} {ds : Option DiffStats} {c : CommitRec}
    {f : String} {v : Value} {rm' : RefMap} (hf : f ≠ "D")
    (h : resolveField rm ds c f = .ok (v, rm')) : rm' = rm := by
  by_cases hmem : f ∈ all_codes
  · simp only [all_codes, List.mem_cons, List.not_mem_nil, or_false] at hmem
    rcases hmem with hc|hc|hc|hc|hc|hc|hc|hc|hc|hc|hc|hc|hc|hc|hc|hc|hc|hc|hc|hc|hc|hc|hc|hc|hc|hc|hc|hc|hc|hc|hc|hc|hc|hc|hc
    all_goals subst hc
    all_goals try (exact absurd rfl hf)
    all_goals simp [resolveField] at h
    all_goals repeat' split at h
    all_goals first
      | exact Except.noConfusion h
      | exact h.2.symm
      | exact h.2
      | (injection h with hp; injection hp with h1 h2; exact h2.symm)
  · rw [resolveField_unknown hmem] at h
    exact Except.noConfusion h

/-- For a deliberately-disallowed or unrecognized code the resolver always
fails with the `invalid_format` message carrying that code and its
corrective reason, for every state. -/
theorem resolve_bad {f r : String} (hr : invalidReason f = some r) (rm : RefMap)
    (ds : Option DiffStats) (c : CommitRec) :
    resolveField rm ds c f = .error (invalid_format_msg f r) := by
  by_cases hmem : f ∈ all_codes
  · simp only [all_codes, List.mem_cons, List.not_mem_nil, or_false] at hmem
    rcases hmem with hc|hc|hc|hc|hc|hc|hc|hc|hc|hc|hc|hc|hc|hc|hc|hc|hc|hc|hc|hc|hc|hc|hc|hc|hc|hc|hc|hc|hc|hc|hc|hc|hc|hc|hc
    all_goals subst hc
    all_goals simp [invalidReason, supported_codes] at hr
    all_goals subst hr
    all_goals rfl
  · have h1 := invalidReason_unknown hmem
    rw [h1] at hr
    injection hr with hr
    subst hr
    exact resolveField_unknown hmem rm ds c

theorem buildRowAux_ok_keys (ds : Option DiffStats) (c : CommitRec) :
    ∀ (fs : List String) (m : JMap) (rm : RefMap) (m' : JMap) (rm' : RefMap),
      buildRowAux ds c fs m rm = .ok (m', rm') →
      JMap.keys m' = fs.foldl key_step (JMap.keys m) := by
  intro fs
  induction fs with
  | nil =>
    intro m rm m' rm' h
    injection h with hp
    injection hp with h1 h2
    subst h1
    simp
  | cons f fs ih =>
    intro m rm m' rm' h
    simp only [buildRowAux] at h
    cases hres : resolveField rm ds c f with
    | error e => rw [hres] at h; exact Except.noConfusion h
    | ok vr =>
      rw [hres] at h
      obtain ⟨v, rm₂⟩ := vr
      have hk := ih (JMap.insert m f v) rm₂ m' rm' h
      rw [hk, List.foldl_cons, JMap.keys_insert]

theorem buildRowAux_lookup_const (ds : Option DiffStats) (c : CommitRec) (f : String) (v : Value)
    (hres : ∀ rm : RefMap, resolveField rm ds c f = .ok (v, rm)) :
    ∀ (fs : List String) (m : JMap) (rm : RefMap) (m' : JMap) (rm' : RefMap),
      buildRowAux ds c fs m rm = .ok (m', rm') → (f ∈ fs ∨ JMap.lookup m f = some v) →
      JMap.lookup m' f = some v := by
  intro fs
  induction fs with
  | nil =>
    intro m rm m' rm' h hmem
    injection h with hp
    injection hp with h1 h2
    subst h1
    rcases hmem with hmem | hmem
    · exact absurd hmem (List.not_mem_nil f)
    · exact hmem
  | cons g fs ih =>
    intro m rm m' rm' h hmem
    simp only [buildRowAux] at h
    cases hres2 : resolveField rm ds c g with
    | error e => rw [hres2] at h; exact Except.noConfusion h
    | ok vr =>
      rw [hres2] at h
      obtain ⟨w, rm₂⟩ := vr
      by_cases hg : g = f
      · subst hg
        have h2 := hres rm
        rw [hres2] at h2
        injection h2 with hp
        injection hp with e1 e2
        refine ih _ _ _ _ h (Or.inr ?_)
        rw [← e1]
        exact JMap.lookup_insert_self m g w
      · rcases hmem with hmem | hmem
        · rcases List.mem_cons.mp hmem with h' | h'
          · exact absurd h'.symm hg
          · exact ih _ _ _ _ h (Or.inl h')
        · refine ih _ _ _ _ h (Or.inr ?_)
          rw [JMap.lookup_insert_other m w hg]
          exact hmem

theorem render_output_nil (fmt : OutputFormat) : render_output fmt [] = [] := by
  cases fmt <;> rfl

/-- Destructs a non-aborted step of the walk: the first row comes from
`buildRowAux` on the diff against the previous commit's tree, and the
remaining rows continue from the updated reference index with the current
commit as the new previous commit. -/
theorem process_cons_pos (dfn : Option Oid → Option Oid → Option DiffStats) (fmts : List String)
    (prev : Option CommitRec) (rm : RefMap) (c : CommitRec) (cs : List CommitRec)
    (h0 : (process_commits dfn fmts prev rm (c :: cs)).1 ≠ []) :
    ∃ row rm',
      buildRowAux (dfn (Option.map CommitRec.treeId prev) (commit_tree c)) c fmts [] rm = .ok (row, rm') ∧
      (process_commits dfn fmts prev rm (c :: cs)).1 =
        row :: (process_commits dfn fmts (some c) rm' cs).1 := by
  cases prev with
  | none =>
    cases hb : buildRowAux (dfn none (commit_tree c)) c fmts [] rm with
    | error e =>
      exfalso
      apply h0
      simp only [process_commits, prev_tree]
      rw [hb]
    | ok p =>
      obtain ⟨row, rm'⟩ := p
      refine ⟨row, rm', hb, ?_⟩
      simp only [process_commits, prev_tree]
      rw [hb]
  | some pc =>
    by_cases ht : pc.treeOk
    · cases hb : buildRowAux (dfn (some pc.treeId) (commit_tree c)) c fmts [] rm with
      | error e =>
        exfalso
        apply h0
        simp only [process_commits, prev_tree, if_pos ht]
        rw [hb]
      | ok p =>
        obtain ⟨row, rm'⟩ := p
        refine ⟨row, rm', by simpa using hb, ?_⟩
        simp only [process_commits, prev_tree, if_pos ht]
        rw [hb]
    · exfalso
      apply h0
      simp [process_commits, prev_tree, ht]

/-- Looks up a diff-style field in the first emitted row. -/
theorem process_row0 (dfn : Option Oid → Option Oid → Option DiffStats) (fmts : List String)
    (prev : Option CommitRec) (rm : RefMap) (c : CommitRec) (cs : List CommitRec)
    (f : String) (v : Value) (row : JMap) (rows : List JMap)
    (hf : f ∈ fmts)
    (hres : ∀ rm' : RefMap,
      resolveField rm' (dfn (Option.map CommitRec.treeId prev) (commit_tree c)) c f = .ok (v, rm'))
    (heq : (process_commits dfn fmts prev rm (c :: cs)).1 = row :: rows) :
    JMap.lookup row f = some v := by
  have h0 : (process_commits dfn fmts prev rm (c :: cs)).1 ≠ [] := by rw [heq]; simp
  obtain ⟨row', rm', hb, hlist⟩ := process_cons_pos dfn fmts prev rm c cs h0
  rw [heq] at hlist
  injection hlist with h1 h2
  subst h1
  exact buildRowAux_lookup_const _ c f v hres fmts [] rm row rm' hb (Or.inl hf)

theorem list_get_congr {α : Type} {l l' : List α} (h : l = l') (i : Nat)
    (hi : i < l.length) (hi' : i < l'.length) : l.get ⟨i, hi⟩ = l'.get ⟨i, hi'⟩ := by
  subst h
  rfl

theorem list_get_cons_zero {α : Type} (a : α) (l : List α) (h : 0 < (a :: l).length) :
    (a :: l).get ⟨0, h⟩ = a := rfl

theorem list_get_cons_succ {α : Type} (a : α) (l : List α) (j : Nat)
    (h : j + 1 < (a :: l).length) (h' : j < l.length) :
    (a :: l).get ⟨j + 1, h⟩ = l.get ⟨j, h'⟩ := rfl

theorem RefMap.lookupRefs_eraseKey {rm : RefMap} {oid oid' : Oid} (h : oid ≠ oid') :
    RefMap.lookupRefs (RefMap.eraseKey rm oid') oid = RefMap.lookupRefs rm oid := by
  induction rm with
  | nil => rfl
  | cons kv rest ih =>
    obtain ⟨k, v⟩ := kv
    by_cases hk : k = oid'
    · have hko : ¬ k = oid := fun he => h (he.symm.trans hk)
      simp only [RefMap.eraseKey, if_pos hk, RefMap.lookupRefs, if_neg hko]
    · have he : RefMap.eraseKey ((k, v) :: rest) oid' = (k, v) :: RefMap.eraseKey rest oid' := by
        simp only [RefMap.eraseKey, if_neg hk]
      rw [he]
      simp only [RefMap.lookupRefs]
      by_cases hko : k = oid
      · rw [if_pos hko, if_pos hko]
      · rw [if_neg hko, if_neg hko, ih]

/-- A row whose field list never mentions `"D"` leaves the reference index
and the row's `"D"` entry untouched. -/
theorem buildRowAux_noD (ds : Option DiffStats) (c : CommitRec) :
    ∀ (fs : List String) (m : JMap) (rm : RefMap) (m' : JMap) (rm' : RefMap),
      "D" ∉ fs → buildRowAux ds c fs m rm = .ok (m', rm') →
      rm' = rm ∧ JMap.lookup m' "D" = JMap.lookup m "D" := by
  intro fs
  induction fs with
  | nil =>
    intro m rm m' rm' _ h
    injection h with hp
    injection hp with h1 h2
    subst h1
    subst h2
    exact ⟨rfl, rfl⟩
  | cons g fs ih =>
    intro m rm m' rm' hD h
    have hgD : g ≠ "D" := fun he => hD (by rw [← he]; exact List.mem_cons_self g fs)
    have hD' : "D" ∉ fs := fun hm => hD (List.mem_cons_of_mem g hm)
    simp only [buildRowAux] at h
    cases hres : resolveField rm ds c g with
    | error e => rw [hres] at h; exact Except.noConfusion h
    | ok vr =>
      rw [hres] at h
      obtain ⟨w, rm₂⟩ := vr
      have hrm2 : rm₂ = rm := resolveField_rm_eq hgD hres
      rw [hrm2] at h
      obtain ⟨ha, hb⟩ := ih (JMap.insert m g w) rm m' rm' hD' h
      refine ⟨ha, ?_⟩
      rw [hb, JMap.lookup_insert_other m w hgD]

/-- A row whose field list mentions `"D"` exactly once reports the
reference-index entry of the current commit and drains that entry. -/
theorem buildRowAux_D_once (ds : Option DiffStats) (c : CommitRec) :
    ∀ (fs : List String) (m : JMap) (rm : RefMap) (m' : JMap) (rm' : RefMap),
      fs.count "D" = 1 → buildRowAux ds c fs m rm = .ok (m', rm') →
      rm' = RefMap.eraseKey rm c.id ∧
      JMap.lookup m' "D" = some (.vArr ((RefMap.lookupRefs rm c.id).getD [])) := by
  intro fs
  induction fs with
  | nil =>
    intro m rm m' rm' hcnt h
    simp at hcnt
  | cons g fs ih =>
    intro m rm m' rm' hcnt h
    simp only [buildRowAux] at h
    by_cases hg : g = "D"
    · subst hg
      have hfs : "D" ∉ fs := by
        rw [List.count_cons_self] at hcnt
        exact List.count_eq_zero.mp (by omega)
      rw [resolve_D rm ds c] at h
      obtain ⟨ha, hb⟩ := buildRowAux_noD ds c fs _ _ m' rm' hfs h
      refine ⟨ha, ?_⟩
      rw [hb, JMap.lookup_insert_self]
    · have hcnt' : fs.count "D" = 1 := by
        have h1 : (g :: fs).count "D" = fs.count "D" := by
          rw [List.count_cons]
          simp [hg, fun he : "D" = g => hg he.symm]
        rw [h1] at hcnt
        exact hcnt
      cases hres : resolveField rm ds c g with
      | error e => rw [hres] at h; exact Except.noConfusion h
      | ok vr =>
        rw [hres] at h
        obtain ⟨w, rm₂⟩ := vr
        have hrm2 : rm₂ = rm := resolveField_rm_eq hg hres
        rw [hrm2] at h
        exact ih (JMap.insert m g w) rm m' rm' hcnt' h

/-- Along a walk of commits with pairwise-distinct ids, every emitted
row's `"D"` entry is the *initial* reference-index entry of its own
commit: entries drained by earlier commits are never reported again. -/
theorem process_D_lookup (dfn : Option Oid → Option Oid → Option DiffStats) (fmts : List String)
    (hcount : fmts.count "D" = 1) :
    ∀ (cs : List CommitRec) (prev : Option CommitRec) (rm : RefMap),
      (cs.map CommitRec.id).Nodup →
      ∀ (i : Nat) (hi : i < (process_commits dfn fmts prev rm cs).1.length) (hc : i < cs.length),
        JMap.lookup ((process_commits dfn fmts prev rm cs).1.get ⟨i, hi⟩) "D" =
          some (.vArr ((RefMap.lookupRefs rm (cs.get ⟨i, hc⟩).id).getD [])) := by
  intro cs
  induction cs with
  | nil =>
    intro prev rm _ i hi hc
    exact absurd hc (by simp)
  | cons c cs ih =>
    intro prev rm hN i hi hc
    have h0 : (process_commits dfn fmts prev rm (c :: cs)).1 ≠ [] := by
      intro he
      rw [he] at hi
      exact Nat.not_lt_zero i hi
    obtain ⟨row, rm', hb, hlist⟩ := process_cons_pos dfn fmts prev rm c cs h0
    obtain ⟨hrm', hD⟩ := buildRowAux_D_once _ c fmts [] rm _ _ hcount hb
    have hb' : i < (row :: (process_commits dfn fmts (some c) rm' cs).1).length := by
      rw [← hlist]
      exact hi
    cases i with
    | zero =>
      have hg : (process_commits dfn fmts prev rm (c :: cs)).1.get ⟨0, hi⟩ = row :=
        (list_get_congr hlist 0 hi hb').trans
          (list_get_cons_zero row (process_commits dfn fmts (some c) rm' cs).1 hb')
      rw [hg]
      exact hD
    | succ j =>
      have hlen : j < (process_commits dfn fmts (some c) rm' cs).1.length := by
        have h2 := hb'
        rw [List.length_cons] at h2
        omega
      have hg : (process_commits dfn fmts prev rm (c :: cs)).1.get ⟨j + 1, hi⟩ =
          (process_commits dfn fmts (some c) rm' cs).1.get ⟨j, hlen⟩ :=
        (list_get_congr hlist (j + 1) hi hb').trans
          (list_get_cons_succ row (process_commits dfn fmts (some c) rm' cs).1 j hb' hlen)
      rw [hg]
      have hNtail : (cs.map CommitRec.id).Nodup := (List.nodup_cons.mp (by simpa using hN)).2
      have hid : c.id ∉ cs.map CommitRec.id := (List.nodup_cons.mp (by simpa using hN)).1
      have hcj : j < cs.length := Nat.lt_of_succ_lt_succ hc
      have hmain := ih (some c) rm' hNtail j hlen hcj
      rw [hmain]
      have hne : (cs.get ⟨j, hcj⟩).id ≠ c.id := by
        intro he
        apply hid
        rw [← he]
        exact List.mem_map_of_mem CommitRec.id (cs.get_mem j hcj)
      rw [hrm', RefMap.lookupRefs_eraseKey hne]
      rfl

/-- Looks up a diff-style field (one whose value depends only on the
current row's diff statistics) in every row after the first: its value is
computed from the diff between the previous visited commit's tree and the
current commit's tree. -/
theorem process_tail_lookup (dfn : Option Oid → Option Oid → Option DiffStats) (fmts : List String)
    (f : String) (vf : Option DiffStats → Value)
    (hres : ∀ (rm : RefMap) (ds : Option DiffStats) (c : CommitRec),
      resolveField rm ds c f = .ok (vf ds, rm))
    (hf : f ∈ fmts) :
    ∀ (i : Nat) (cs : List CommitRec) (prev : Option CommitRec) (rm : RefMap)
      (hi : i + 1 < (process_commits dfn fmts prev rm cs).1.length) (hc : i + 1 < cs.length),
      JMap.lookup ((process_commits dfn fmts prev rm cs).1.get ⟨i + 1, hi⟩) f =
        some (vf (dfn (some ((cs.get ⟨i, Nat.lt_of_succ_lt hc⟩).treeId))
          (commit_tree (cs.get ⟨i + 1, hc⟩)))) := by
  intro i
  induction i with
  | zero =>
    intro cs prev rm hi hc
    cases cs with
    | nil => simp at hc
    | cons c cs' =>
      cases cs' with
      | nil => simp at hc
      | cons c' cs'' =>
        have h0 : (process_commits dfn fmts prev rm (c :: c' :: cs'')).1 ≠ [] := by
          intro he
          rw [he] at hi
          exact Nat.not_lt_zero 1 hi
        obtain ⟨row, rm', hb, hlist⟩ := process_cons_pos dfn fmts prev rm c (c' :: cs'') h0
        have hb' : 1 < (row :: (process_commits dfn fmts (some c) rm' (c' :: cs'')).1).length := by
          rw [← hlist]
          exact hi
        have hlen : 0 < (process_commits dfn fmts (some c) rm' (c' :: cs'')).1.length := by
          have h2 := hb'
          rw [List.length_cons] at h2
          omega
        have hg : (process_commits dfn fmts prev rm (c :: c' :: cs'')).1.get ⟨1, hi⟩ =
            (process_commits dfn fmts (some c) rm' (c' :: cs'')).1.get ⟨0, hlen⟩ :=
          (list_get_congr hlist 1 hi hb').trans
            (list_get_cons_succ row (process_commits dfn fmts (some c) rm' (c' :: cs'')).1 0 hb' hlen)
        cases htail : (process_commits dfn fmts (some c) rm' (c' :: cs'')).1 with
        | nil =>
          rw [htail] at hlen
          simp at hlen
        | cons row' rest =>
          have hlen' : 0 < (row' :: rest).length := by simp
          have hg2 : (process_commits dfn fmts (some c) rm' (c' :: cs'')).1.get ⟨0, hlen⟩ = row' :=
            (list_get_congr htail 0 hlen hlen').trans (list_get_cons_zero row' rest hlen')
          rw [hg, hg2]
          exact process_row0 dfn fmts (some c) rm' c' cs'' f
            (vf (dfn (some c.treeId) (commit_tree c'))) row' rest hf
            (fun rm'' => hres rm'' (dfn (some c.treeId) (commit_tree c')) c') htail
  | succ j ihj =>
    intro cs prev rm hi hc
    cases cs with
    | nil => simp at hc
    | cons c cs' =>
      have h0 : (process_commits dfn fmts prev rm (c :: cs')).1 ≠ [] := by
        intro he
        rw [he] at hi
        exact Nat.not_lt_zero _ hi
      obtain ⟨row, rm', hb, hlist⟩ := process_cons_pos dfn fmts prev rm c cs' h0
      have hb' : j + 2 < (row :: (process_commits dfn fmts (some c) rm' cs').1).length := by
        rw [← hlist]
        exact hi
      have hlen : j + 1 < (process_commits dfn fmts (some c) rm' cs').1.length := by
        have h2 := hb'
        rw [List.length_cons] at h2
        omega
      have hg : (process_commits dfn fmts prev rm (c :: cs')).1.get ⟨j + 2, hi⟩ =
          (process_commits dfn fmts (some c) rm' cs').1.get ⟨j + 1, hlen⟩ :=
        (list_get_congr hlist (j + 2) hi hb').trans
          (list_get_cons_succ row (process_commits dfn fmts (some c) rm' cs').1 (j + 1) hb' hlen)
      rw [hg]
      have hc' : j + 1 < cs'.length := Nat.lt_of_succ_lt_succ hc
      exact ihj cs' (some c) rm' hlen hc'

/-- Every row the walk emits has the same keys: the requested field codes
with later duplicates dropped. -/
theorem process_rows_keys (dfn : Option Oid → Option Oid → Option DiffStats) (fmts : List String) :
    ∀ (cs : List CommitRec) (prev : Option CommitRec) (rm : RefMap) (row : JMap),
      row ∈ (process_commits dfn fmts prev rm cs).1 → JMap.keys row = dedup_first fmts := by
  intro cs
  induction cs with
  | nil =>
    intro prev rm row hrow
    simp [process_commits] at hrow
  | cons c cs ih =>
    intro prev rm row hrow
    have h0 : (process_commits dfn fmts prev rm (c :: cs)).1 ≠ [] := by
      intro he
      rw [he] at hrow
      exact List.not_mem_nil row hrow
    obtain ⟨row', rm', hb, hlist⟩ := process_cons_pos dfn fmts prev rm c cs h0
    rw [hlist] at hrow
    rcases List.mem_cons.mp hrow with he | he
    · subst he
      exact buildRowAux_ok_keys _ c fmts [] rm row rm' hb
    · exact ih (some c) rm' row he

/-- C1 (amended): for every commit visited, the emitted Output Record's
keys are exactly the requested field codes with each later duplicate
occurrence collapsed into the first (so for a duplicate-free request the
keys are exactly the requested codes in request order).  The original
claim's "a duplicated field code produces its own separate key/column per
occurrence" is refuted by `C1_counterexample`. -/
theorem C1_record_keys (dfn : Option Oid → Option Oid → Option DiffStats)
    (fmts : List String) (prev : Option CommitRec) (rm : RefMap) (cs : List CommitRec) :
    (∀ row ∈ (process_commits dfn fmts prev rm cs).1, JMap.keys row = dedup_first fmts) ∧
    (fmts.Nodup → dedup_first fmts = fmts) :=
  ⟨fun row hrow => process_rows_keys dfn fmts cs prev rm row hrow,
   fun h => dedup_first_nodup fmts h⟩

theorem C1_record_keys_witness :
    JMap.keys [("an", Value.vStr "Alice"), ("at", Value.vNum 1700000000)] = ["an", "at"] := by
  have h := C1_record_keys dfnN ["an", "at"] none [] [cA]
  have h1 := h.1 [("an", Value.vStr "Alice"), ("at", Value.vNum 1700000000)] (by decide)
  rw [h1]
  exact h.2 (by decide)

/-- C1 counterexample: requesting `H,H` on a concrete one-commit walk
produces a record with a single `H` key, not two separate `H` columns. -/
theorem C1_counterexample :
    (process_commits dfnN ["H", "H"] none [] [cA]).1.map JMap.keys = [["H"]] ∧
    [["H"]] ≠ [["H", "H"]] := by
  decide

/-- C2: when the backend yields no diff statistics for a missing first
tree (spec section 6 contract), the first emitted record's `df`/`di`/`dd`
values are the empty string, wherever those codes appear in the request. -/
theorem C2_first_record_diff_empty (dfn : Option Oid → Option Oid → Option DiffStats)
    (hB : ∀ t, dfn none t = none)
    (fmts : List String) (rm : RefMap) (c : CommitRec) (cs : List CommitRec)
    (row : JMap) (rows : List JMap)
    (heq : (process_commits dfn fmts none rm (c :: cs)).1 = row :: rows) :
    ("df" ∈ fmts → JMap.lookup row "df" = some (.vStr "")) ∧
    ("di" ∈ fmts → JMap.lookup row "di" = some (.vStr "")) ∧
    ("dd" ∈ fmts → JMap.lookup row "dd" = some (.vStr "")) := by
  refine ⟨fun hf => ?_, fun hf => ?_, fun hf => ?_⟩
  · refine process_row0 dfn fmts none rm c cs "df" (.vStr "") row rows hf (fun rm' => ?_) heq
    rw [show dfn (Option.map CommitRec.treeId none) (commit_tree c) = none from hB _]
    exact resolve_df rm' none c
  · refine process_row0 dfn fmts none rm c cs "di" (.vStr "") row rows hf (fun rm' => ?_) heq
    rw [show dfn (Option.map CommitRec.treeId none) (commit_tree c) = none from hB _]
    exact resolve_di rm' none c
  · refine process_row0 dfn fmts none rm c cs "dd" (.vStr "") row rows hf (fun rm' => ?_) heq
    rw [show dfn (Option.map CommitRec.treeId none) (commit_tree c) = none from hB _]
    exact resolve_dd rm' none c

theorem C2_first_record_diff_empty_witness :
    JMap.lookup [("df", Value.vStr ""), ("di", Value.vStr ""), ("dd", Value.vStr "")] "df"
      = some (Value.vStr "") := by
  exact (C2_first_record_diff_empty dfnN (fun t => rfl) ["df", "di", "dd"] [] cA []
    [("df", Value.vStr ""), ("di", Value.vStr ""), ("dd", Value.vStr "")] [] (by decide)).1
    (by decide)

/-- C3 (amended): JSON mode and CSV mode render the same per-commit row
maps and report the same error; each CSV data cell is serde_json's JSON
rendering of the corresponding JSON value, so the example row renders as
the JSON line with keys `an`,`at` and as the CSV header `an,at` followed
by the data row `"Alice",1700000000` — string values keep their JSON
quoting in CSV (the original claim's unquoted `Alice,1700000000` is
refuted by `C3_counterexample`). -/
theorem C3_json_csv_correspondence (dfn : Option Oid → Option Oid → Option DiffStats)
    (refItems : List RefItem) (fmts : List String) (cs : List CommitRec) :
    (∃ rows : List JMap,
      (run_with_formats dfn refItems fmts .Json cs).lines = rows.map render_row_json ∧
      (run_with_formats dfn refItems fmts .Csv cs).lines = render_output .Csv rows ∧
      (run_with_formats dfn refItems fmts .Json cs).error =
        (run_with_formats dfn refItems fmts .Csv cs).error) ∧
    run_with_formats dfnN [] ["an", "at"] .Json [cA] =
      { lines := ["\x7b\"an\":\"Alice\",\"at\":1700000000\x7d"], error := none } ∧
    run_with_formats dfnN [] ["an", "at"] .Csv [cA] =
      { lines := ["an,at", "\"Alice\",1700000000"], error := none } := by
  refine ⟨?_, by decide, by decide⟩
  unfold run_with_formats
  cases hb : (if fmts.contains "D" then build_reference_map refItems else Except.ok []) with
  | error e => exact ⟨[], rfl, rfl, rfl⟩
  | ok rm => exact ⟨(process_commits dfn fmts none rm cs).1, rfl, rfl, rfl⟩

/-- C3 counterexample: in CSV mode the string value `Alice` is emitted
with JSON quoting, so the data row is `"Alice",1700000000`, not the
claim's `Alice,1700000000`. -/
theorem C3_counterexample :
    (run_with_formats dfnN [] ["an", "at"] .Csv [cA]).lines = ["an,at", "\"Alice\",1700000000"] ∧
    ["an,at", "\"Alice\",1700000000"] ≠ ["an,at", "Alice,1700000000"] := by
  decide

/-- C7: the reference index is consulted only when the field list contains
`D` — without `D` the run is independent of the ref enumeration — and with
`D` a fundamental enumeration failure aborts the whole run with no output. -/
theorem C7_ref_index_iff_D (dfn : Option Oid → Option Oid → Option DiffStats)
    (fmts : List String) (fmt : OutputFormat) (cs : List CommitRec) :
    (¬ "D" ∈ fmts → ∀ refItems refItems' : List RefItem,
      run_with_formats dfn refItems fmts fmt cs = run_with_formats dfn refItems' fmts fmt cs) ∧
    ("D" ∈ fmts → ∀ (refItems : List RefItem) (e : String),
      build_reference_map refItems = .error e →
      run_with_formats dfn refItems fmts fmt cs = { lines := [], error := some e }) := by
  constructor
  · intro h ri ri'
    have hc : fmts.contains "D" = false := by simpa using h
    unfold run_with_formats
    rw [hc]
    rfl
  · intro h ri e hbuild
    have hc : fmts.contains "D" = true := by simpa using h
    unfold run_with_formats
    rw [hc, hbuild]
    rfl

theorem C7_ref_index_iff_D_witness :
    run_with_formats dfnN [RefItem.enumErr "boom"] ["D"] .Json [] =
      { lines := [], error := some "boom" } ∧
    run_with_formats dfnN [RefItem.enumErr "x"] ["an"] .Json [cA] =
      run_with_formats dfnN [] ["an"] .Json [cA] := by
  constructor
  · exact (C7_ref_index_iff_D dfnN ["D"] .Json []).2 (by decide) [RefItem.enumErr "boom"] "boom" rfl
  · exact (C7_ref_index_iff_D dfnN ["an"] .Json [cA]).1 (by decide) [RefItem.enumErr "x"] []

/-- C10: a run whose revision walk yields zero commits prints nothing at
all — not even a CSV header — and finishes without error, whatever the
field list contains (field codes are only validated per visited commit). -/
theorem C10_empty_walk_no_output (dfn : Option Oid → Option Oid → Option DiffStats)
    (refItems : List RefItem) (fmts : List String) (fmt : OutputFormat) (rm : RefMap)
    (hrm : (if fmts.contains "D" then build_reference_map refItems else Except.ok []) = .ok rm) :
    run_with_formats dfn refItems fmts fmt [] = { lines := [], error := none } := by
  unfold run_with_formats
  rw [hrm]
  simp only [process_commits]
  rw [render_output_nil]

theorem C10_empty_walk_no_output_witness :
    run_with_formats dfnN [] ["zz", "aD", "D"] .Csv [] = { lines := [], error := none } :=
  C10_empty_walk_no_output dfnN [] ["zz", "aD", "D"] .Csv [] rfl

/-- A row over a field list containing an invalid code never completes:
some field fails first. -/
theorem buildRowAux_bad (ds : Option DiffStats) (c : CommitRec) (code r : String)
    (hr : invalidReason code = some r) :
    ∀ (fs : List String) (m : JMap) (rm : RefMap), code ∈ fs →
      ∃ e, buildRowAux ds c fs m rm = .error e := by
  intro fs
  induction fs with
  | nil =>
    intro m rm hmem
    exact absurd hmem (List.not_mem_nil code)
  | cons g fs ih =>
    intro m rm hmem
    by_cases hg : g = code
    · subst hg
      refine ⟨invalid_format_msg g r, ?_⟩
      simp only [buildRowAux]
      rw [resolve_bad hr rm ds c]
    · rcases List.mem_cons.mp hmem with he | he
      · exact absurd he.symm hg
      · simp only [buildRowAux]
        cases hres : resolveField rm ds c g with
        | error e => exact ⟨e, rfl⟩
        | ok vr =>
          obtain ⟨w, rm₂⟩ := vr
          exact ih (JMap.insert m g w) rm₂ he

/-- When every field before the first occurrence of the invalid code
resolves, the row fails with exactly that code's `invalid_format`
message. -/
theorem buildRowAux_bad_first (ds : Option DiffStats) (c : CommitRec) (code r : String)
    (hr : invalidReason code = some r) :
    ∀ (fs : List String) (m : JMap) (rm : RefMap), code ∈ fs →
      (∀ f ∈ fs.takeWhile (fun g => g != code), ∀ rm₂ : RefMap,
        ∃ p, resolveField rm₂ ds c f = .ok p) →
      buildRowAux ds c fs m rm = .error (invalid_format_msg code r) := by
  intro fs
  induction fs with
  | nil =>
    intro m rm hmem _
    exact absurd hmem (List.not_mem_nil code)
  | cons g fs ih =>
    intro m rm hmem hpre
    by_cases hg : g = code
    · subst hg
      simp only [buildRowAux]
      rw [resolve_bad hr rm ds c]
    · have hgb : (g != code) = true := bne_iff_ne.mpr hg
      have htw : (g :: fs).takeWhile (fun g => g != code) =
          g :: fs.takeWhile (fun g => g != code) := by
        simp [List.takeWhile_cons, hgb]
      obtain ⟨⟨w, rm₂⟩, hres⟩ := hpre g (by rw [htw]; exact List.mem_cons_self _ _) rm
      have hmem' : code ∈ fs := by
        rcases List.mem_cons.mp hmem with he | he
        · exact absurd he.symm hg
        · exact he
      simp only [buildRowAux]
      rw [hres]
      refine ih (JMap.insert m g w) rm₂ hmem' ?_
      intro f hf rm₃
      exact hpre f (by rw [htw]; exact List.mem_cons_of_mem g hf) rm₃

/-- C4: a field list containing a disallowed or unrecognized code makes
any run that visits at least one commit fail with no output line at all;
and when that code is the first field that fails, the error is the
`invalid_format` message naming the code and its corrective reason. -/
theorem C4_invalid_field_aborts (dfn : Option Oid → Option Oid → Option DiffStats)
    (refItems : List RefItem) (fmts : List String) (fmt : OutputFormat)
    (c : CommitRec) (cs : List CommitRec) (code r : String) (rm : RefMap)
    (hr : invalidReason code = some r) (hmem : code ∈ fmts)
    (hrm : (if fmts.contains "D" then build_reference_map refItems else Except.ok []) = .ok rm) :
    (run_with_formats dfn refItems fmts fmt (c :: cs)).lines = [] ∧
    (run_with_formats dfn refItems fmts fmt (c :: cs)).error.isSome = true ∧
    ((∀ f ∈ fmts.takeWhile (fun g => g != code), ∀ rm₂ : RefMap,
        ∃ p, resolveField rm₂ (dfn none (commit_tree c)) c f = .ok p) →
      (run_with_formats dfn refItems fmts fmt (c :: cs)).error =
        some (invalid_format_msg code r)) := by
  have hrun : run_with_formats dfn refItems fmts fmt (c :: cs) =
      { lines := render_output fmt (process_commits dfn fmts none rm (c :: cs)).1,
        error := (process_commits dfn fmts none rm (c :: cs)).2 } := by
    unfold run_with_formats
    rw [hrm]
  obtain ⟨e, he⟩ := buildRowAux_bad (dfn none (commit_tree c)) c code r hr fmts [] rm hmem
  have hproc : process_commits dfn fmts none rm (c :: cs) = ([], some e) := by
    simp only [process_commits, prev_tree]
    rw [he]
  refine ⟨?_, ?_, ?_⟩
  · rw [hrun]
    show render_output fmt (process_commits dfn fmts none rm (c :: cs)).1 = []
    rw [hproc]
    exact render_output_nil fmt
  · rw [hrun]
    show ((process_commits dfn fmts none rm (c :: cs)).2).isSome = true
    rw [hproc]
    rfl
  · intro hpre
    have hb := buildRowAux_bad_first (dfn none (commit_tree c)) c code r hr fmts [] rm hmem hpre
    have hproc2 : process_commits dfn fmts none rm (c :: cs) =
        ([], some (invalid_format_msg code r)) := by
      simp only [process_commits, prev_tree]
      rw [hb]
    rw [hrun]
    show (process_commits dfn fmts none rm (c :: cs)).2 = some (invalid_format_msg code r)
    rw [hproc2]

theorem C4_invalid_field_aborts_witness :
    (run_with_formats dfnN [] ["an", "aD"] .Json [cA]).lines = [] ∧
    (run_with_formats dfnN [] ["an", "aD"] .Json [cA]).error =
      some "Invalid format `aD`: Formatted dates not supported, use `aI` and format the date yourself" := by
  have h := C4_invalid_field_aborts dfnN [] ["an", "aD"] .Json cA [] "aD"
    "Formatted dates not supported, use `aI` and format the date yourself" [] (by decide)
    (by decide) rfl
  refine ⟨h.1, ?_⟩
  have h2 := h.2.2 (by
    intro f hf rm₂
    have htw : (["an", "aD"].takeWhile (fun g => g != "aD")) = ["an"] := rfl
    rw [htw] at hf
    rcases List.mem_singleton.mp hf with rfl
    exact ⟨(Value.vStr "Alice", rm₂), rfl⟩)
  exact h2

/-- C5 (amended): when `D` is requested exactly once, each ref short-name
appears in the emitted record of exactly one commit — the one it points
at — with the `D` value empty for every other commit; and resolving a row
always drains the current commit's entry from the Reference Index.  The
original claim without the "exactly once" proviso is refuted by
`C5_counterexample` (a duplicated `D` drains on the first occurrence and
the second overwrites the key with an empty list). -/
theorem C5_refs_reported_once (dfn : Option Oid → Option Oid → Option DiffStats)
    (fmts : List String) (hcount : fmts.count "D" = 1)
    (bId : Oid) (names : List String) (cs : List CommitRec) (prev : Option CommitRec)
    (hN : (cs.map CommitRec.id).Nodup) (hmem : bId ∈ cs.map CommitRec.id) :
    (∀ (i : Nat) (hi : i < (process_commits dfn fmts prev [(bId, names)] cs).1.length)
      (hc : i < cs.length),
      JMap.lookup ((process_commits dfn fmts prev [(bId, names)] cs).1.get ⟨i, hi⟩) "D" =
        some (.vArr (if (cs.get ⟨i, hc⟩).id = bId then names else []))) ∧
    (∃ j, ∃ hj : j < cs.length, (cs.get ⟨j, hj⟩).id = bId) ∧
    (∀ (ds : Option DiffStats) (c : CommitRec) (m m' : JMap) (rm rm' : RefMap),
      buildRowAux ds c fmts m rm = .ok (m', rm') → rm' = RefMap.eraseKey rm c.id) := by
  refine ⟨?_, ?_, ?_⟩
  · intro i hi hc
    have h := process_D_lookup dfn fmts hcount cs prev [(bId, names)] hN i hi hc
    rw [h]
    by_cases he : (cs.get ⟨i, hc⟩).id = bId
    · rw [if_pos he]
      have hlk : RefMap.lookupRefs [(bId, names)] (cs.get ⟨i, hc⟩).id = some names := by
        simp only [RefMap.lookupRefs]
        rw [if_pos he.symm]
      rw [hlk]
      rfl
    · rw [if_neg he]
      have hlk : RefMap.lookupRefs [(bId, names)] (cs.get ⟨i, hc⟩).id = none := by
        simp only [RefMap.lookupRefs]
        rw [if_neg (fun h2 => he h2.symm)]
      rw [hlk]
      rfl
  · obtain ⟨c, hcmem, hid⟩ := List.mem_map.mp hmem
    obtain ⟨⟨j, hj⟩, hget⟩ := List.mem_iff_get.mp hcmem
    exact ⟨j, hj, by rw [hget]; exact hid⟩
  · intro ds c m m' rm rm' hrow
    exact (buildRowAux_D_once ds c fmts m rm m' rm' hcount hrow).1

theorem C5_refs_reported_once_witness :
    JMap.lookup ((process_commits dfnN ["D"] none [([18], ["main", "dev"])] [cA, cB]).1.get
      ⟨0, by decide⟩) "D" = some (Value.vArr ["main", "dev"]) ∧
    JMap.lookup ((process_commits dfnN ["D"] none [([18], ["main", "dev"])] [cA, cB]).1.get
      ⟨1, by decide⟩) "D" = some (Value.vArr []) := by
  have h := C5_refs_reported_once dfnN ["D"] (by decide) [18] ["main", "dev"] [cA, cB] none
    (by decide) (by decide)
  constructor
  · exact (h.1 0 (by decide) (by decide)).trans (by decide)
  · exact (h.1 1 (by decide) (by decide)).trans (by decide)

/-- C5 counterexample: with the field list `D,D`, the single emitted
record — of the very commit the ref `main` points at — carries an empty
`D` list, so the ref short-name appears in no emitted record at all. -/
theorem C5_counterexample :
    (process_commits dfnN ["D", "D"] none [([18], ["main"])] [cA]).1.map
      (fun r => JMap.lookup r "D") = [some (Value.vArr [])] ∧
    some (Value.vArr ([] : List String)) ≠ some (Value.vArr ["main"]) := by
  decide

/-- C6: for every commit after the first, the `df`/`di`/`dd` values are
the diff statistics between the immediately preceding visited commit's
tree and the current commit's tree (the single-slot previous-commit cell
having been updated after the preceding commit). -/
theorem C6_diff_vs_previous_row (dfn : Option Oid → Option Oid → Option DiffStats)
    (fmts : List String) (cs : List CommitRec) (prev : Option CommitRec) (rm : RefMap)
    (i : Nat) (hi : i + 1 < (process_commits dfn fmts prev rm cs).1.length)
    (hc : i + 1 < cs.length) :
    ("df" ∈ fmts → JMap.lookup ((process_commits dfn fmts prev rm cs).1.get ⟨i + 1, hi⟩) "df" =
      some (.vStr (df_string (dfn (some ((cs.get ⟨i, Nat.lt_of_succ_lt hc⟩).treeId))
        (commit_tree (cs.get ⟨i + 1, hc⟩)))))) ∧
    ("di" ∈ fmts → JMap.lookup ((process_commits dfn fmts prev rm cs).1.get ⟨i + 1, hi⟩) "di" =
      some (.vStr (di_string (dfn (some ((cs.get ⟨i, Nat.lt_of_succ_lt hc⟩).treeId))
        (commit_tree (cs.get ⟨i + 1, hc⟩)))))) ∧
    ("dd" ∈ fmts → JMap.lookup ((process_commits dfn fmts prev rm cs).1.get ⟨i + 1, hi⟩) "dd" =
      some (.vStr (dd_string (dfn (some ((cs.get ⟨i, Nat.lt_of_succ_lt hc⟩).treeId))
        (commit_tree (cs.get ⟨i + 1, hc⟩)))))) := by
  refine ⟨fun hf => ?_, fun hf => ?_, fun hf => ?_⟩
  · exact process_tail_lookup dfn fmts "df" (fun ds => .vStr (df_string ds))
      (fun rm₂ ds c => resolve_df rm₂ ds c) hf i cs prev rm hi hc
  · exact process_tail_lookup dfn fmts "di" (fun ds => .vStr (di_string ds))
      (fun rm₂ ds c => resolve_di rm₂ ds c) hf i cs prev rm hi hc
  · exact process_tail_lookup dfn fmts "dd" (fun ds => .vStr (dd_string ds))
      (fun rm₂ ds c => resolve_dd rm₂ ds c) hf i cs prev rm hi hc

theorem C6_diff_vs_previous_row_witness :
    JMap.lookup ((process_commits dfnC ["df", "di", "dd"] none [] [cA, cB]).1.get
      ⟨1, by decide⟩) "df" = some (Value.vStr "3") := by
  have h := (C6_diff_vs_previous_row dfnC ["df", "di", "dd"] [cA, cB] none [] 0
    (by decide) (by decide)).1 (by decide)
  exact h.trans (by decide)

theorem char_digit_digitChar {n : Nat} (h : n < 10) : char_digit (Nat.digitChar n) = n := by
  interval_cases n <;> rfl

theorem decode_offset_data {s : String} {sg h1 h2 m1 m2 : Char}
    (hd : s.data = [sg, h1, h2, ':', m1, m2]) :
    decode_offset s =
      (if sg = '+' then
        some ((char_digit h1 * 600 + char_digit h2 * 60 +
          char_digit m1 * 10 + char_digit m2 : Nat) : Int)
      else if sg = '-' then
        some (-((char_digit h1 * 600 + char_digit h2 * 60 +
          char_digit m1 * 10 + char_digit m2 : Nat) : Int))
      else none) := by
  unfold decode_offset
  rw [hd]
  rfl

/-- C8: the ISO-8601 rendering ends with a timezone suffix that decodes
back to exactly the stored UTC-offset minutes — the offset is preserved
verbatim, never normalized to UTC. -/
theorem C8_timezone_preserved (t : GitTime) (h : t.offsetMinutes.natAbs < 1440) :
    ∃ d, git_time_to_iso8601 t = d ++ render_offset (t.offsetMinutes * 60) ∧
      decode_offset (render_offset (t.offsetMinutes * 60)) = some t.offsetMinutes := by
  have habs : (t.offsetMinutes * 60).natAbs = t.offsetMinutes.natAbs * 60 := by
    rw [Int.natAbs_mul]
    rfl
  have hmin : (t.offsetMinutes * 60).natAbs / 60 = t.offsetMinutes.natAbs := by
    rw [habs]
    omega
  have hd1 := char_digit_digitChar (n := t.offsetMinutes.natAbs / 60 / 10) (by omega)
  have hd2 := char_digit_digitChar (n := t.offsetMinutes.natAbs / 60 % 10) (by omega)
  have hd3 := char_digit_digitChar (n := t.offsetMinutes.natAbs % 60 / 10) (by omega)
  have hd4 := char_digit_digitChar (n := t.offsetMinutes.natAbs % 60 % 10) (by omega)
  have harith : t.offsetMinutes.natAbs / 60 / 10 * 600 + t.offsetMinutes.natAbs / 60 % 10 * 60 +
      t.offsetMinutes.natAbs % 60 / 10 * 10 + t.offsetMinutes.natAbs % 60 % 10 =
      t.offsetMinutes.natAbs := by omega
  refine ⟨_, rfl, ?_⟩
  by_cases hneg : t.offsetMinutes * 60 < 0
  · have hdata : (render_offset (t.offsetMinutes * 60)).data =
        ['-', Nat.digitChar (t.offsetMinutes.natAbs / 60 / 10),
         Nat.digitChar (t.offsetMinutes.natAbs / 60 % 10), ':',
         Nat.digitChar (t.offsetMinutes.natAbs % 60 / 10),
         Nat.digitChar (t.offsetMinutes.natAbs % 60 % 10)] := by
      simp only [render_offset]
      rw [if_pos hneg, hmin]
      rfl
    rw [decode_offset_data hdata]
    rw [if_neg (show ('-' : Char) ≠ '+' by decide), if_pos rfl]
    have hcast : ((t.offsetMinutes.natAbs : Int)) = -t.offsetMinutes := by
      rw [← Int.natAbs_neg]
      exact Int.natAbs_of_nonneg (by omega)
    rw [hd1, hd2, hd3, hd4, harith, hcast, neg_neg]
  · have hdata : (render_offset (t.offsetMinutes * 60)).data =
        ['+', Nat.digitChar (t.offsetMinutes.natAbs / 60 / 10),
         Nat.digitChar (t.offsetMinutes.natAbs / 60 % 10), ':',
         Nat.digitChar (t.offsetMinutes.natAbs % 60 / 10),
         Nat.digitChar (t.offsetMinutes.natAbs % 60 % 10)] := by
      simp only [render_offset]
      rw [if_neg hneg, hmin]
      rfl
    rw [decode_offset_data hdata]
    rw [if_pos rfl]
    have hcast : ((t.offsetMinutes.natAbs : Int)) = t.offsetMinutes :=
      Int.natAbs_of_nonneg (by omega)
    rw [hd1, hd2, hd3, hd4, harith, hcast]

theorem C8_timezone_preserved_witness :
    decode_offset (render_offset (90 * 60)) = some 90 := by
  obtain ⟨d, h1, h2⟩ :=
    C8_timezone_preserved { seconds := 1700000000, offsetMinutes := 90 } (by decide)
  exact h2

theorem opt_all_forall₂ :
    ∀ (xs : List (Option String)) (ys : List Oid) (l : List String),
      List.Forall₂ (fun so oid => ∀ s, so = some s →
        s.data.isPrefixOf (oid_to_hex_string oid).data = true) xs ys →
      opt_all xs = some l →
      List.Forall₂ (fun s S => s.data.isPrefixOf S.data = true) l (ys.map oid_to_hex_string) := by
  intro xs
  induction xs with
  | nil =>
    intro ys l hF hall
    cases hF
    injection hall with h
    subst h
    exact List.Forall₂.nil
  | cons so xs ih =>
    intro ys l hF hall
    cases hF with
    | cons hhead htail =>
      cases so with
      | none => exact Option.noConfusion hall
      | some s =>
        cases hrest : opt_all xs with
        | none =>
          rw [opt_all, hrest] at hall
          exact Option.noConfusion hall
        | some l' =>
          rw [opt_all, hrest] at hall
          injection hall with h
          subst h
          exact List.Forall₂.cons (hhead s rfl) (ih _ _ htail hrest)

/-- C9: given the backend contract that abbreviated hashes are prefixes
of the full hex hashes (spec section 6), the values the resolver produces
for `h`, `t` and `p` are string prefixes of the values produced for `H`,
`T` and `P` on the same commit, element-wise for the parent lists. -/
theorem C9_short_hashes (rm : RefMap) (ds : Option DiffStats) (c : CommitRec)
    (hshort : ∀ s, c.shortId = some s → s.data.isPrefixOf (oid_to_hex_string c.id).data = true)
    (htree : ∀ s, c.treeShortId = some s → s.data.isPrefixOf (oid_to_hex_string c.treeId).data = true)
    (hpar : List.Forall₂ (fun so oid => ∀ s, so = some s →
      s.data.isPrefixOf (oid_to_hex_string oid).data = true) c.parentShortIds c.parentIds) :
    (∀ (s S : String) (rm₁ rm₂ : RefMap), resolveField rm ds c "h" = .ok (.vStr s, rm₁) →
      resolveField rm ds c "H" = .ok (.vStr S, rm₂) → s.data.isPrefixOf S.data = true) ∧
    (∀ (s S : String) (rm₁ rm₂ : RefMap), resolveField rm ds c "t" = .ok (.vStr s, rm₁) →
      resolveField rm ds c "T" = .ok (.vStr S, rm₂) → s.data.isPrefixOf S.data = true) ∧
    (∀ (l L : List String) (rm₁ rm₂ : RefMap), resolveField rm ds c "p" = .ok (.vArr l, rm₁) →
      resolveField rm ds c "P" = .ok (.vArr L, rm₂) →
      List.Forall₂ (fun s S => s.data.isPrefixOf S.data = true) l L) := by
  refine ⟨?_, ?_, ?_⟩
  · intro s S rm₁ rm₂ hh hH
    have h0 : resolveField rm ds c "H" = Except.ok (Value.vStr (oid_to_hex_string c.id), rm) := rfl
    rw [h0] at hH
    injection hH with hp
    injection hp with e1 e2
    injection e1 with eS
    subst eS
    cases hsi : c.shortId with
    | none =>
      rw [show resolveField rm ds c "h" = Except.error "libgit returned a bad shorthash" from by
        simp [resolveField, hsi]] at hh
      exact Except.noConfusion hh
    | some s0 =>
      rw [show resolveField rm ds c "h" = Except.ok (Value.vStr s0, rm) from by
        simp [resolveField, hsi]] at hh
      injection hh with hp2
      injection hp2 with e3 e4
      injection e3 with es
      subst es
      exact hshort s0 hsi
  · intro s S rm₁ rm₂ ht hT
    have h0 : resolveField rm ds c "T" =
        Except.ok (Value.vStr (oid_to_hex_string c.treeId), rm) := rfl
    rw [h0] at hT
    injection hT with hp
    injection hp with e1 e2
    injection e1 with eS
    subst eS
    cases hto : c.treeOk with
    | false =>
      rw [show resolveField rm ds c "t" = Except.error "could not fetch tree object" from by
        simp [resolveField, hto]] at ht
      exact Except.noConfusion ht
    | true =>
      cases hsi : c.treeShortId with
      | none =>
        rw [show resolveField rm ds c "t" = Except.error "libgit returned a bad shorthash" from by
          simp [resolveField, hto, hsi]] at ht
        exact Except.noConfusion ht
      | some s0 =>
        rw [show resolveField rm ds c "t" = Except.ok (Value.vStr s0, rm) from by
          simp [resolveField, hto, hsi]] at ht
        injection ht with hp2
        injection hp2 with e3 e4
        injection e3 with es
        subst es
        exact htree s0 hsi
  · intro l L rm₁ rm₂ hp hP
    have h0 : resolveField rm ds c "P" =
        Except.ok (Value.vArr (c.parentIds.map oid_to_hex_string), rm) := rfl
    rw [h0] at hP
    injection hP with hpr
    injection hpr with e1 e2
    injection e1 with eL
    subst eL
    cases hall : opt_all c.parentShortIds with
    | none =>
      rw [show resolveField rm ds c "p" = Except.error "libgit returned a bad shorthash" from by
        simp [resolveField, hall]] at hp
      exact Except.noConfusion hp
    | some l0 =>
      rw [show resolveField rm ds c "p" = Except.ok (Value.vArr l0, rm) from by
        simp [resolveField, hall]] at hp
      injection hp with hpr2
      injection hpr2 with e3 e4
      injection e3 with el
      subst el
      exact opt_all_forall₂ c.parentShortIds c.parentIds l0 hpar hall

theorem C9_short_hashes_witness :
    List.isPrefixOf "a1".data (oid_to_hex_string cC.id).data = true := by
  refine (C9_short_hashes [] none cC ?_ ?_ ?_).1 "a1" (oid_to_hex_string cC.id) [] [] ?_ ?_
  · intro s hs
    injection hs with hv
    subst hv
    decide
  · intro s hs
    injection hs with hv
    subst hv
    decide
  · refine List.Forall₂.cons ?_ List.Forall₂.nil
    intro s hs
    injection hs with hv
    subst hv
    decide
  · rfl
  · rfl
